import Mathlib

/-!
Verification of the prime-generator core of the `projecteuler` repository
(TypeScript sources `sorted-linked-list.ts` and `problem-3.ts`).

The TypeScript code is shallowly embedded as follows.

* `SortedLinkedList<T>` is a mutable singly linked chain of nodes, each node
  holding one value.  A chain is modelled as a `List T` (node order = link
  order).  The method `insert` of `sorted-linked-list.ts` (lines 21-39) is
  modelled by `SortedLinkedList.insert`; `create` (lines 69-78) sorts the
  initial values and links them.  `create` invoked with zero values builds a
  single node whose value is `undefined` (the result of `shift()` on an empty
  array); reading that head value is modelled by `SortedLinkedList.createHead`,
  which returns `none` exactly when the value slot holds `undefined`.
* A comparator `Comparator<T>` is a function `T → T → Int` (the JS number
  result only matters through its sign).
* `ValuedIterator` wrapping `multipleGenerator(p, null)` is a pair of the base
  `p` and the cached current multiple, modelled by `Cursor`; `next()` adds the
  base to the current value.
* The generator function `primeGenerator` (problem-3.ts lines 114-171) is
  modelled by `primeGenAux`, a fuel-indexed transcription of its loops: one
  unit of fuel is consumed per iteration of either loop.  The returned pair is
  the list of values yielded by the sieve loop together with a flag that is
  `true` iff the run reached the `break` (so `false` means the transcription
  ran out of fuel, which for a bounded generator means the fuel was too small,
  and for the unbounded generator is the only possible outcome).
* `isPrime` (lines 96-106) and `primeFactors` (lines 63-88) are transcribed
  directly; `Math.floor(Math.sqrt(v))` on a nonnegative integer is modelled by `floorSqrt v` (equal to `Nat.sqrt v`),
  and `value / prime` is exact integer division because it is only evaluated
  when `value % prime == 0`.  `primeFactors` can fall off the end of its
  `for` loop and return `undefined`; its model therefore produces
  `some none` for that outcome, `some (some l)` for a returned list, and
  `none` when the recursion fuel (TypeScript recurses unboundedly, e.g. on
  input 0) or the generator fuel is exhausted.
-/

/-- Model of `ValuedIterator` over `multipleGenerator(base, null)`: `base` is
the fixed prime whose multiples are generated and `cur` is the cached current
value (`currentValue`).  The constructor call reads the first multiple, which
is `base` itself, so a fresh cursor for `p` is `⟨p, p⟩`. -/
structure Cursor where
  base : Nat
  cur : Nat
deriving DecidableEq, Repr

namespace SortedLinkedList

/-- Model of the walk in `insert` (sorted-linked-list.ts lines 28-37): walk the
tail of the receiver past every node whose value compares `< 0` against the new
value and splice a fresh node in front of the first remaining node (or at the
end).  The receiver's head has already been compared when this walk starts. -/
def insertTail {T : Type} (cmp : T → T → Int) (v : T) : List T → List T
  | [] => [v]
  | x :: xs => if cmp x v < 0 then x :: insertTail cmp v xs else v :: x :: xs

/-- Model of `SortedLinkedList.insert` (sorted-linked-list.ts lines 21-39):
if the head compares `> 0` against the new value the fresh node becomes the new
head; otherwise the new node is spliced into the tail by the walk above.  The
source method is always invoked on an existing node, so the `[]` case below is
never reached from code modelled here; it is totalised as a one-node list. -/
def insert {T : Type} (cmp : T → T → Int) (l : List T) (v : T) : List T :=
  match l with
  | [] => [v]
  | h :: t => if cmp h v > 0 then v :: h :: t else h :: insertTail cmp v t

/-- Model of `SortedLinkedList.create` (sorted-linked-list.ts lines 69-78):
sort the initial values with the comparator once (`values.sort(...)` in the
source; any comparator-respecting sort models it) and link them in order. -/
def create {T : Type} (cmp : T → T → Int) (values : List T) : List T :=
  values.insertionSort fun a b => cmp a b ≤ 0

/-- Model of `create(comparator, ...values).getValue()`: the value slot of the
head node built by `create`.  With zero initial values, `values.shift()` in the
source returns `undefined` and the node's value slot holds `undefined`;
`getValue()` then returns that `undefined`, modelled as `none`. -/
def createHead {T : Type} (cmp : T → T → Int) (values : List T) : Option T :=
  (create cmp values).head?

end SortedLinkedList

/-- Model of the comparator defined inside `primeGenerator` (problem-3.ts lines
118-123): compare two multiple generators by `valueA.current() - valueB.current()`. -/
def cursorCompare (a b : Cursor) : Int := (a.cur : Int) - (b.cur : Int)

/-- The same comparator shape for plain numeric values (`valueA - valueB`),
used to instantiate the generic container claims. -/
def natCompare (a b : Nat) : Int := (a : Int) - (b : Int)

/-- Model of advancing a `ValuedIterator` (`next()`): the wrapped
`multipleGenerator` steps by the base each time. -/
def Cursor.advance (c : Cursor) : Cursor := ⟨c.base, c.cur + c.base⟩

/-- The initial cursor chain of `primeGenerator` (problem-3.ts lines 130-134):
`SortedLinkedList.create` applied to fresh multiple generators for 3, 5 and 7. -/
def initGens : List Cursor :=
  SortedLinkedList.create cursorCompare [⟨3, 3⟩, ⟨5, 5⟩, ⟨7, 7⟩]

/-- Model of the bound test `!isNullOrUndefined(maxValue) && value >= maxValue`
(problem-3.ts line 157). -/
def boundReached (maxValue : Option Nat) (value : Nat) : Bool :=
  match maxValue with
  | some m => value ≥ m
  | none => false

/-- Transcription of the loops of `primeGenerator` (problem-3.ts lines 142-170),
one unit of fuel per loop iteration.  State: `value` is the candidate, `gens`
the sorted cursor chain.  If the head cursor is behind the candidate, advance
it, re-insert it into the remainder of the chain, and bump the candidate by 2
if the new minimum lands exactly on it (inner `while`, lines 144-154).
Otherwise the candidate survived the sift: stop if a bound was supplied and
reached (lines 157-160, flag `true` = reached the `break`), else yield the
candidate, insert a fresh cursor for it and try the next odd number (lines
162-169).  The cursor chain always holds at least the three seed cursors, so
the `[]` branch is unreachable from the initial state. -/
def primeGenAux (maxValue : Option Nat) : Nat → Nat → List Cursor → List Nat × Bool
  | 0, _, _ => ([], false)
  | _ + 1, _, [] => ([], false)
  | fuel + 1, value, g :: gs =>
    if g.cur < value then
      let gens2 := SortedLinkedList.insert cursorCompare gs g.advance
      let value2 := if (gens2.head?.map Cursor.cur) = some value then value + 2 else value
      primeGenAux maxValue fuel value2 gens2
    else
      if boundReached maxValue value then
        ([], true)
      else
        let r := primeGenAux maxValue fuel (value + 2)
          (SortedLinkedList.insert cursorCompare (g :: gs) ⟨value, value⟩)
        (value :: r.1, r.2)

/-- The full value sequence of `primeGenerator(maxValue)` run with the given
fuel: the four unconditional seed yields (problem-3.ts lines 137-140) followed
by everything the sieve loop yields, starting from candidate 11. -/
def primeGenList (maxValue : Option Nat) (fuel : Nat) : List Nat :=
  2 :: 3 :: 5 :: 7 :: (primeGenAux maxValue fuel 11 initGens).1

/-- The output of a bounded `primeGenerator(b)` when the run completes (reaches
its `break`), and `none` when the given fuel is insufficient to complete. -/
def primeGenListF (fuel b : Nat) : Option (List Nat) :=
  let r := primeGenAux (some b) fuel 11 initGens
  if r.2 then some (2 :: 3 :: 5 :: 7 :: r.1) else none

/-- Transcription of the trial-division loop of `isPrime` (problem-3.ts lines
101-104) with `i = 6*k+5`: while `i` is at most `Math.sqrt(value)` (for integer
`i` this is exactly `i ≤ Nat.sqrt value`), test divisibility by `i` and `i+2`
and step `i` by 6. -/
def isPrimeAux (value k : Nat) : Bool :=
  if h : 6 * k + 5 ≤ Nat.sqrt value then
    if value % (6 * k + 5) = 0 ∨ value % (6 * k + 7) = 0 then false
    else isPrimeAux value (k + 1)
  else true
termination_by Nat.sqrt value - k
decreasing_by
  omega

/-- Transcription of `isPrime` (problem-3.ts lines 96-106).  Note the source
tests `value % 3 == 0` before ever comparing with 3, so it reports 3 itself as
not prime; there is a special case for 2 but none for 3. -/
def isPrime (value : Int) : Bool :=
  if value < 2 then false
  else if value = 2 then true
  else if value % 2 = 0 ∨ value % 3 = 0 then false
  else isPrimeAux value.toNat 0

/-- Helper for `floorSqrt`: the largest `j ≤ k` with `j * j ≤ n` (0 when none). -/
def floorSqrtAux (n : Nat) : Nat → Nat
  | 0 => 0
  | k + 1 => if (k + 1) * (k + 1) ≤ n then k + 1 else floorSqrtAux n k

/-- Model of `Math.floor(Math.sqrt(n))` on a nonnegative integer: the integer
square root (shown below to agree with `Nat.sqrt`; defined by structural
recursion so that it evaluates by kernel reduction). -/
def floorSqrt (n : Nat) : Nat := floorSqrtAux n n

/-- Transcription of `primeFactors` (problem-3.ts lines 63-88).  `fuel` bounds
the recursion depth (the source recursion is unbounded, e.g. it never returns
on input 0), `genFuel` is passed to the bounded prime generator.  Result:
`none` when either fuel runs out, `some none` when the source falls off the
end of its `for` loop and returns `undefined`, `some (some l)` for a returned
list.  The pushed-factor guard compares the last element of the accumulator
with `value` (the number being factored) in both branches, exactly as the
source does (lines 70 and 81). -/
def primeFactorsF : Nat → Nat → Nat → List Nat → Option (Option (List Nat))
  | 0, _, _, _ => none
  | fuel + 1, genFuel, value, existingFactors =>
    if value = 1 then some (some existingFactors)
    else if isPrime (value : Int) then
      some (some (if existingFactors.getLast? = some value then existingFactors
        else existingFactors ++ [value]))
    else
      match primeGenListF genFuel (floorSqrt value) with
      | none => none
      | some primes =>
        match primes.find? fun p => value % p = 0 with
        | some p =>
          let result := if existingFactors.getLast? = some value then existingFactors
            else existingFactors ++ [p]
          primeFactorsF fuel genFuel (value / p) result
        | none => some none

/-- Reference list: the primes p with `lo ≤ p < hi`, in ascending order. -/
def primesBetween (lo hi : Nat) : List Nat :=
  (List.range' lo (hi - lo)).filter fun n => decide n.Prime

/-- The ordering the generator's comparator induces on cursors. -/
def curLe (a b : Cursor) : Prop := a.cur ≤ b.cur

instance : IsTrans Cursor curLe := ⟨fun _ _ _ h1 h2 => le_trans h1 h2⟩

/-- Per-cursor invariant at candidate `value`: the base is an odd prime already
emitted (so below the candidate), the current value is a positive multiple of
the base, and the previous multiple was already below the candidate (the sift
never advances a cursor that has reached the candidate). -/
def CursorOK (value : Nat) (c : Cursor) : Prop :=
  c.base.Prime ∧ 3 ≤ c.base ∧ c.base < value ∧ c.base ∣ c.cur ∧ c.base ≤ c.cur ∧
    c.cur < value + c.base

/-- The sieve-loop invariant of `primeGenerator`: the candidate is odd and at
least 11, the cursor chain is sorted by current value, every cursor is
well-formed, the cursor bases are exactly the odd primes below the candidate
(each occurring once), and the minimum cursor never sits exactly on the
candidate when the loop condition is evaluated. -/
def SieveInv (value : Nat) (gens : List Cursor) : Prop :=
  value % 2 = 1 ∧ 11 ≤ value ∧
  List.Chain' curLe gens ∧
  (∀ c ∈ gens, CursorOK value c) ∧
  (gens.map Cursor.base).Nodup ∧
  (∀ p : Nat, p.Prime → 3 ≤ p → p < value → p ∈ gens.map Cursor.base) ∧
  (∀ g : Cursor, gens.head? = some g → g.cur ≠ value)

/-- Termination measure for the sieve run against an upper landmark `Q` (any
prime past the bound): candidates can only rise to `Q`, cursors only to `2*Q`. -/
def sieveMeasure (Q value : Nat) (gens : List Cursor) : Nat :=
  (Q + 2 - value) * (2 * Q + 4) + (gens.map fun c => 2 * Q + 4 - c.cur).sum

instance (a b : Cursor) : Decidable (curLe a b) :=
  inferInstanceAs (Decidable (a.cur ≤ b.cur))

instance (value : Nat) (c : Cursor) : Decidable (CursorOK value c) :=
  inferInstanceAs (Decidable (c.base.Prime ∧ 3 ≤ c.base ∧ c.base < value ∧ c.base ∣ c.cur ∧
    c.base ≤ c.cur ∧ c.cur < value + c.base))

/-- Model of building a container by repeated insertion (the generator's usage
pattern of the Ordered Container) over numeric values with the subtraction
comparator, starting from nothing; reading the head and advancing then
enumerates exactly this list. -/
def buildContainer (vs : List Nat) : List Nat :=
  vs.foldl (SortedLinkedList.insert natCompare) []

namespace SortedLinkedList

theorem insertTail_perm {T : Type} (cmp : T → T → Int) (v : T) :
    ∀ l : List T, (insertTail cmp v l).Perm (v :: l) := by
  intro l
  induction l with
  | nil => simp [insertTail]
  | cons x xs ih =>
    by_cases h : cmp x v < 0
    · simpa [insertTail, h] using (ih.cons x).trans (List.Perm.swap v x xs)
    · simp [insertTail, h]

theorem insert_perm {T : Type} (cmp : T → T → Int) (l : List T) (v : T) :
    (insert cmp l v).Perm (v :: l) := by
  cases l with
  | nil => simp [insert]
  | cons h t =>
    by_cases hc : cmp h v > 0
    · simp [insert, hc]
    · simpa [insert, hc] using ((insertTail_perm cmp v t).cons h).trans (List.Perm.swap v h t)

theorem insertTail_chain {T : Type} (cmp : T → T → Int)
    (hcmp : ∀ a b, 0 ≤ cmp a b → cmp b a ≤ 0) (v : T) :
    ∀ (t : List T) (prev : T), cmp prev v ≤ 0 →
      List.Chain' (fun a b => cmp a b ≤ 0) (prev :: t) →
      List.Chain' (fun a b => cmp a b ≤ 0) (prev :: insertTail cmp v t) := by
  intro t
  induction t with
  | nil =>
    intro prev hpv _
    simpa [insertTail] using hpv
  | cons x xs ih =>
    intro prev hpv hchain
    rw [List.chain'_cons] at hchain
    by_cases h : cmp x v < 0
    · rw [insertTail, if_pos h, List.chain'_cons]
      exact ⟨hchain.1, ih x (le_of_lt h) hchain.2⟩
    · rw [insertTail, if_neg h, List.chain'_cons, List.chain'_cons]
      exact ⟨hpv, hcmp x v (not_lt.mp h), hchain.2⟩

theorem insert_chain {T : Type} (cmp : T → T → Int)
    (hcmp : ∀ a b, 0 ≤ cmp a b → cmp b a ≤ 0)
    (l : List T) (hl : List.Chain' (fun a b => cmp a b ≤ 0) l) (v : T) :
    List.Chain' (fun a b => cmp a b ≤ 0) (insert cmp l v) := by
  cases l with
  | nil => simp [insert]
  | cons h t =>
    by_cases hc : cmp h v > 0
    · rw [insert, if_pos hc, List.chain'_cons]
      exact ⟨hcmp h v (le_of_lt hc), hl⟩
    · rw [insert, if_neg hc]
      exact insertTail_chain cmp hcmp v t h (not_lt.mp hc) hl

end SortedLinkedList

theorem primesBetween_of_le (lo hi : Nat) (h : hi ≤ lo) : primesBetween lo hi = [] := by
  unfold primesBetween
  rw [Nat.sub_eq_zero_of_le h]
  rfl

theorem primesBetween_succ (lo hi : Nat) (h : lo < hi) :
    primesBetween lo hi = (if lo.Prime then [lo] else []) ++ primesBetween (lo + 1) hi := by
  unfold primesBetween
  have hs : hi - lo = (hi - (lo + 1)) + 1 := by omega
  rw [hs, List.range'_succ, List.filter_cons]
  by_cases hp : lo.Prime <;> simp [hp]

theorem primesBetween_drop (lo hi : Nat) (h : ¬ lo.Prime) :
    primesBetween lo hi = primesBetween (lo + 1) hi := by
  rcases lt_or_le lo hi with hlt | hle
  · rw [primesBetween_succ lo hi hlt]
    simp [h]
  · rw [primesBetween_of_le lo hi hle, primesBetween_of_le (lo + 1) hi (by omega)]

theorem not_prime_of_even (n : Nat) (h2 : 2 < n) (he : n % 2 = 0) : ¬ n.Prime := by
  intro hp
  rcases hp.eq_one_or_self_of_dvd 2 (Nat.dvd_of_mod_eq_zero he) with h | h <;> omega

theorem primesBetween_two_step (value hi : Nat) (hodd : value % 2 = 1) (h2 : 2 < value)
    (hnp : ¬ value.Prime) :
    primesBetween value hi = primesBetween (value + 2) hi := by
  rw [primesBetween_drop value hi hnp,
    primesBetween_drop (value + 1) hi (not_prime_of_even _ (by omega) (by omega))]

theorem primesBetween_cons (value hi : Nat) (hlt : value < hi) (hp : value.Prime)
    (hodd : value % 2 = 1) (h2 : 2 < value) :
    primesBetween value hi = value :: primesBetween (value + 2) hi := by
  rw [primesBetween_succ value hi hlt, if_pos hp,
    primesBetween_drop (value + 1) hi (not_prime_of_even _ (by omega) (by omega))]
  rfl

theorem mem_primesBetween {x lo hi : Nat} :
    x ∈ primesBetween lo hi ↔ lo ≤ x ∧ x < hi ∧ x.Prime := by
  unfold primesBetween
  rw [List.mem_filter, List.mem_range'_1, decide_eq_true_iff]
  constructor
  · rintro ⟨⟨h1, h2⟩, h3⟩
    exact ⟨h1, by omega, h3⟩
  · rintro ⟨h1, h2, h3⟩
    exact ⟨⟨h1, by omega⟩, h3⟩

theorem primesBetween_pairwise (lo hi : Nat) :
    (primesBetween lo hi).Pairwise (· < ·) :=
  (List.pairwise_lt_range' lo (hi - lo) 1).filter _

theorem primesBetween_nodup (lo hi : Nat) : (primesBetween lo hi).Nodup :=
  (primesBetween_pairwise lo hi).imp Nat.ne_of_lt

theorem cursorCompare_le_iff (a b : Cursor) : cursorCompare a b ≤ 0 ↔ curLe a b := by
  unfold cursorCompare curLe
  omega

theorem cursorCompare_antisym (a b : Cursor) :
    0 ≤ cursorCompare a b → cursorCompare b a ≤ 0 := by
  unfold cursorCompare
  omega

theorem csorted_insert {l : List Cursor} (hl : List.Chain' curLe l) (v : Cursor) :
    List.Chain' curLe (SortedLinkedList.insert cursorCompare l v) := by
  have h1 : List.Chain' (fun a b => cursorCompare a b ≤ 0) l :=
    hl.imp fun a b h => (cursorCompare_le_iff a b).mpr h
  exact (SortedLinkedList.insert_chain cursorCompare cursorCompare_antisym l h1 v).imp
    fun a b h => (cursorCompare_le_iff a b).mp h

theorem csorted_head_min {l : List Cursor} (hl : List.Chain' curLe l)
    {g : Cursor} (hg : l.head? = some g) : ∀ x ∈ l, g.cur ≤ x.cur := by
  cases l with
  | nil => simp at hg
  | cons h t =>
    have hgh : g = h := by
      simp only [List.head?_cons, Option.some.injEq] at hg
      exact hg.symm
    subst hgh
    intro x hx
    rcases List.mem_cons.mp hx with rfl | hx'
    · exact le_refl _
    · exact List.rel_of_pairwise_cons (List.chain'_iff_pairwise.mp hl) hx'

theorem insert_ne_nil {T : Type} (cmp : T → T → Int) (l : List T) (v : T) :
    SortedLinkedList.insert cmp l v ≠ [] := by
  intro h
  have hp := SortedLinkedList.insert_perm cmp l v
  rw [h] at hp
  exact absurd hp.length_eq (by simp)

theorem CursorOK.mono {value value' : Nat} {c : Cursor} (h : value ≤ value')
    (hc : CursorOK value c) : CursorOK value' c := by
  obtain ⟨h1, h2, h3, h4, h5, h6⟩ := hc
  exact ⟨h1, h2, by omega, h4, h5, by omega⟩

theorem primeGenAux_adv (maxValue : Option Nat) (fuel value : Nat) (g : Cursor)
    (gs : List Cursor) (h : g.cur < value) :
    primeGenAux maxValue (fuel + 1) value (g :: gs) =
      primeGenAux maxValue fuel
        (if ((SortedLinkedList.insert cursorCompare gs g.advance).head?.map Cursor.cur)
            = some value then value + 2 else value)
        (SortedLinkedList.insert cursorCompare gs g.advance) := by
  rw [primeGenAux, if_pos h]

theorem primeGenAux_break (maxValue : Option Nat) (fuel value : Nat) (g : Cursor)
    (gs : List Cursor) (h : ¬ g.cur < value) (hb : boundReached maxValue value = true) :
    primeGenAux maxValue (fuel + 1) value (g :: gs) = ([], true) := by
  rw [primeGenAux, if_neg h, if_pos hb]

theorem primeGenAux_emit (maxValue : Option Nat) (fuel value : Nat) (g : Cursor)
    (gs : List Cursor) (h : ¬ g.cur < value) (hb : boundReached maxValue value = false) :
    primeGenAux maxValue (fuel + 1) value (g :: gs) =
      ((value :: (primeGenAux maxValue fuel (value + 2)
          (SortedLinkedList.insert cursorCompare (g :: gs) ⟨value, value⟩)).1),
        (primeGenAux maxValue fuel (value + 2)
          (SortedLinkedList.insert cursorCompare (g :: gs) ⟨value, value⟩)).2) := by
  rw [primeGenAux, if_neg h, if_neg (by rw [hb]; exact Bool.false_ne_true)]

theorem primeGenAux_correct (B Q : Nat) (hQP : Q.Prime) (hQ13 : 13 ≤ Q) (hQB : B + 1 ≤ Q) :
    ∀ fuel value gens, SieveInv value gens → value ≤ Q →
      sieveMeasure Q value gens < fuel →
      primeGenAux (some B) fuel value gens = (primesBetween value B, true) := by
  have hQodd : Q % 2 = 1 := Nat.odd_iff.mp (hQP.odd_of_ne_two (by omega))
  intro fuel
  induction fuel with
  | zero =>
    intro value gens _ _ hm
    omega
  | succ fuel ih =>
    intro value gens hInv hvQ hm
    obtain ⟨hodd, h11, hsort, hok, hnodup, hcompl, hhead⟩ := hInv
    cases gens with
    | nil =>
      exfalso
      have h3 := hcompl 3 (by norm_num) (le_refl 3) (by omega)
      simp at h3
    | cons g gs =>
      have hgok : CursorOK value g := hok g (List.mem_cons_self g gs)
      obtain ⟨hgP, hg3, hgv, hgd, hgle, hgub⟩ := hgok
      by_cases hlt : g.cur < value
      · -- inner while: advance the minimum cursor and re-insert it
        rw [primeGenAux_adv (some B) fuel value g gs hlt]
        set g2 := g.advance with hg2def
        have hg2base : g2.base = g.base := rfl
        have hg2cur : g2.cur = g.cur + g.base := rfl
        set gens2 := SortedLinkedList.insert cursorCompare gs g2 with hgens2def
        have hperm : gens2.Perm (g2 :: gs) := SortedLinkedList.insert_perm _ _ _
        have hsort2 : List.Chain' curLe gens2 := csorted_insert (List.Chain'.tail hsort) g2
        have hok2 : ∀ c ∈ gens2, CursorOK value c := by
          intro c hc
          rcases List.mem_cons.mp (hperm.mem_iff.mp hc) with rfl | hc'
          · exact ⟨hgP, hg3, hgv, by rw [hg2cur, hg2base]; exact dvd_add hgd dvd_rfl,
              by rw [hg2cur, hg2base]; omega, by rw [hg2cur, hg2base]; omega⟩
          · exact hok c (List.mem_cons_of_mem g hc')
        have hbases : (gens2.map Cursor.base).Perm ((g :: gs).map Cursor.base) := by
          simpa using hperm.map Cursor.base
        obtain ⟨c0, cs0, hc0⟩ : ∃ c0 cs0, gens2 = c0 :: cs0 := by
          cases hg : gens2 with
          | nil => exact absurd hg (insert_ne_nil cursorCompare gs g2)
          | cons a b => exact ⟨a, b, rfl⟩
        have hc0mem : c0 ∈ gens2 := by
          rw [hc0]
          exact List.mem_cons_self c0 cs0
        have hc0ok : CursorOK value c0 := hok2 c0 hc0mem
        have hsum2 : ((gens2.map fun c => 2 * Q + 4 - c.cur).sum)
            = (2 * Q + 4 - g2.cur) + ((gs.map fun c => 2 * Q + 4 - c.cur).sum) := by
          have hs := (hperm.map fun c => 2 * Q + 4 - c.cur).sum_eq
          simpa using hs
        by_cases hbump : gens2.head?.map Cursor.cur = some value
        · -- the new minimum landed on the candidate: composite, try value + 2
          rw [if_pos hbump]
          have hc0cur : c0.cur = value := by
            rw [hc0] at hbump
            simpa using hbump
          have hcomp : ¬ value.Prime := by
            intro hp
            obtain ⟨hb1, hb2, hb3, hb4, hb5, hb6⟩ := hc0ok
            have hdv : c0.base ∣ value := hc0cur ▸ hb4
            rcases hp.eq_one_or_self_of_dvd c0.base hdv with h | h <;> omega
          have hvltQ : value < Q := lt_of_le_of_ne hvQ (by rintro rfl; exact hcomp hQP)
          have hv2Q : value + 2 ≤ Q := by omega
          have hInv2 : SieveInv (value + 2) gens2 := by
            refine ⟨by omega, by omega, hsort2, ?_, ?_, ?_, ?_⟩
            · intro c hc
              exact (hok2 c hc).mono (by omega)
            · exact hbases.nodup_iff.mpr hnodup
            · intro p hp hp3 hpv
              have hplt : p < value := by
                rcases (by omega : p < value ∨ p = value ∨ p = value + 1) with h | h | h
                · exact h
                · exact absurd (h ▸ hp) hcomp
                · exact absurd hp (not_prime_of_even p (by omega) (by omega))
              exact hbases.mem_iff.mpr (hcompl p hp hp3 hplt)
            · intro gg hgg
              rw [hc0] at hgg
              simp only [List.head?_cons, Option.some.injEq] at hgg
              rw [← hgg]
              omega
          have hmd : sieveMeasure Q (value + 2) gens2 < sieveMeasure Q value (g :: gs) := by
            unfold sieveMeasure
            rw [hsum2, hg2cur]
            simp only [List.map_cons, List.sum_cons]
            have hA : Q + 2 - value = (Q - value) + 2 := by omega
            have hA2 : Q + 2 - (value + 2) = Q - value := by omega
            rw [hA, hA2, Nat.add_mul]
            set t := (Q - value) * (2 * Q + 4) with ht
            set S := ((gs.map fun c => 2 * Q + 4 - c.cur).sum) with hS
            omega
          rw [ih (value + 2) gens2 hInv2 hv2Q (by omega),
            primesBetween_two_step value B hodd (by omega) hcomp]
        · -- the new minimum is elsewhere: candidate unchanged
          rw [if_neg hbump]
          have hInv2 : SieveInv value gens2 := by
            refine ⟨hodd, h11, hsort2, hok2, hbases.nodup_iff.mpr hnodup, ?_, ?_⟩
            · intro p hp hp3 hpv
              exact hbases.mem_iff.mpr (hcompl p hp hp3 hpv)
            · intro gg hgg hcur
              apply hbump
              rw [hgg]
              simp [hcur]
          have hmd : sieveMeasure Q value gens2 < sieveMeasure Q value (g :: gs) := by
            unfold sieveMeasure
            rw [hsum2, hg2cur]
            simp only [List.map_cons, List.sum_cons]
            set t := (Q + 2 - value) * (2 * Q + 4) with ht
            set S := ((gs.map fun c => 2 * Q + 4 - c.cur).sum) with hS
            omega
          rw [ih value gens2 hInv2 hvQ (by omega)]
      · -- the minimum cursor is at or past the candidate
        have hgcur : value < g.cur := by
          have hge := not_lt.mp hlt
          have hne := hhead g rfl
          omega
        by_cases hB : B ≤ value
        · rw [primeGenAux_break (some B) fuel value g gs hlt
            (by simp only [boundReached, ge_iff_le, decide_eq_true_eq]; omega),
            primesBetween_of_le value B hB]
        · have hbf : boundReached (some B) value = false := by
            simp only [boundReached, ge_iff_le, decide_eq_false_iff_not]
            omega
          rw [primeGenAux_emit (some B) fuel value g gs hlt hbf]
          have hallgt : ∀ c ∈ (g :: gs), value < c.cur := by
            intro c hc
            have := csorted_head_min hsort rfl c hc
            omega
          have hvP : value.Prime := by
            by_contra hnp
            have hqP : value.minFac.Prime := Nat.minFac_prime (by omega)
            have hqd : value.minFac ∣ value := Nat.minFac_dvd value
            have hqne : value.minFac ≠ value := fun h => hnp (h ▸ hqP)
            have hqlt : value.minFac < value :=
              lt_of_le_of_ne (Nat.minFac_le (by omega)) hqne
            have hq2 : value.minFac ≠ 2 := by
              intro h
              have h2 : 2 ∣ value := h ▸ hqd
              omega
            have hq3 : 3 ≤ value.minFac := by
              have := hqP.two_le
              omega
            have hqmem := hcompl value.minFac hqP hq3 hqlt
            rw [List.mem_map] at hqmem
            obtain ⟨c, hcmem, hcbase⟩ := hqmem
            obtain ⟨_, _, _, hcd, _, hcub⟩ := hok c hcmem
            have hcgt := hallgt c hcmem
            rw [hcbase] at hcd hcub
            obtain ⟨a, ha⟩ := hcd
            obtain ⟨b, hb⟩ := hqd
            have hq0 : (0 : Nat) < value.minFac := by omega
            have h1 : b < a := by
              have hx : value.minFac * b < value.minFac * a := by
                rw [← ha, ← hb]
                exact hcgt
              exact lt_of_mul_lt_mul_left hx (by omega)
            have h2 : a < b + 1 := by
              have hx : value.minFac * a < value.minFac * (b + 1) := by
                rw [← ha, Nat.mul_add, ← hb, Nat.mul_one]
                exact hcub
              exact lt_of_mul_lt_mul_left hx (by omega)
            omega
          rw [show (⟨value, value⟩ : Cursor) = ⟨value, value⟩ from rfl]
          set vc : Cursor := ⟨value, value⟩ with hvcdef
          set gens3 := SortedLinkedList.insert cursorCompare (g :: gs) vc with hgens3def
          have hperm3 : gens3.Perm (vc :: g :: gs) := SortedLinkedList.insert_perm _ _ _
          have hsort3 : List.Chain' curLe gens3 := csorted_insert hsort vc
          have hvccur : vc.cur = value := rfl
          have hvcbase : vc.base = value := rfl
          have hok3 : ∀ c ∈ gens3, CursorOK (value + 2) c := by
            intro c hc
            rcases List.mem_cons.mp (hperm3.mem_iff.mp hc) with rfl | hc'
            · exact ⟨by rw [hvcbase]; exact hvP, by rw [hvcbase]; omega,
                by rw [hvcbase]; omega, by rw [hvcbase, hvccur],
                by rw [hvcbase, hvccur], by rw [hvcbase, hvccur]; omega⟩
            · exact (hok c hc').mono (by omega)
          have hbases3 : (gens3.map Cursor.base).Perm (value :: (g :: gs).map Cursor.base) := by
            simpa using hperm3.map Cursor.base
          have hnotmem : value ∉ (g :: gs).map Cursor.base := by
            intro hmem
            rw [List.mem_map] at hmem
            obtain ⟨c, hcm, hcb⟩ := hmem
            have := (hok c hcm).2.2.1
            omega
          have hInv3 : SieveInv (value + 2) gens3 := by
            refine ⟨by omega, by omega, hsort3, hok3, ?_, ?_, ?_⟩
            · exact hbases3.nodup_iff.mpr (List.nodup_cons.mpr ⟨hnotmem, hnodup⟩)
            · intro p hp hp3 hpv
              rcases (by omega : p < value ∨ p = value ∨ p = value + 1) with h | h | h
              · exact hbases3.mem_iff.mpr (List.mem_cons_of_mem _ (hcompl p hp hp3 h))
              · exact hbases3.mem_iff.mpr (h ▸ List.mem_cons_self _ _)
              · exact absurd hp (not_prime_of_even p (by omega) (by omega))
            · intro gg hgg
              have hvcmem : vc ∈ gens3 := hperm3.mem_iff.mpr (List.mem_cons_self _ _)
              have hle := csorted_head_min hsort3 hgg vc hvcmem
              rw [hvccur] at hle
              omega
          have hmd : sieveMeasure Q (value + 2) gens3 < sieveMeasure Q value (g :: gs) := by
            unfold sieveMeasure
            have hsum3 : ((gens3.map fun c => 2 * Q + 4 - c.cur).sum)
                = (2 * Q + 4 - value) + (((g :: gs).map fun c => 2 * Q + 4 - c.cur).sum) := by
              have hs := (hperm3.map fun c => 2 * Q + 4 - c.cur).sum_eq
              simpa using hs
            rw [hsum3]
            have hA : Q + 2 - value = (Q - value) + 2 := by omega
            have hA2 : Q + 2 - (value + 2) = Q - value := by omega
            rw [hA, hA2, Nat.add_mul]
            set t := (Q - value) * (2 * Q + 4) with ht
            set S := (((g :: gs).map fun c => 2 * Q + 4 - c.cur).sum) with hS
            omega
          rw [ih (value + 2) gens3 hInv3 (by omega) (by omega),
            primesBetween_cons value B (by omega) hvP hodd (by omega)]

theorem initGens_eq : initGens = [⟨3, 3⟩, ⟨5, 5⟩, ⟨7, 7⟩] := by decide

theorem sieveInv_init : SieveInv 11 initGens := by
  rw [initGens_eq]
  refine ⟨by norm_num, by norm_num,
    by simp [List.chain'_cons, List.chain'_singleton, curLe], by decide, by decide, ?_, ?_⟩
  · intro p hp h3 hlt
    interval_cases p <;> first
      | decide
      | exact absurd hp (by norm_num)
  · intro gg hgg
    simp only [List.head?_cons, Option.some.injEq] at hgg
    rw [← hgg]
    decide

theorem primeGenAux_mono (maxValue : Option Nat) :
    ∀ fuel fuel' value gens, fuel ≤ fuel' →
      (primeGenAux maxValue fuel value gens).2 = true →
      primeGenAux maxValue fuel' value gens = primeGenAux maxValue fuel value gens := by
  intro fuel
  induction fuel with
  | zero =>
    intro fuel' value gens _ h2
    simp [primeGenAux] at h2
  | succ fuel ih =>
    intro fuel' value gens hle h2
    obtain ⟨f', rfl⟩ : ∃ f', fuel' = f' + 1 := ⟨fuel' - 1, by omega⟩
    cases gens with
    | nil => simp [primeGenAux] at h2
    | cons g gs =>
      by_cases hlt : g.cur < value
      · rw [primeGenAux_adv maxValue fuel value g gs hlt] at h2
        rw [primeGenAux_adv maxValue f' value g gs hlt,
          primeGenAux_adv maxValue fuel value g gs hlt]
        exact ih f' _ _ (by omega) h2
      · cases hb : boundReached maxValue value with
        | true =>
          rw [primeGenAux_break maxValue f' value g gs hlt hb,
            primeGenAux_break maxValue fuel value g gs hlt hb]
        | false =>
          rw [primeGenAux_emit maxValue fuel value g gs hlt hb] at h2
          simp only at h2
          rw [primeGenAux_emit maxValue f' value g gs hlt hb,
            primeGenAux_emit maxValue fuel value g gs hlt hb,
            ih f' (value + 2) _ (by omega) h2]

theorem primeGenAux_extend (maxValue : Option Nat) :
    ∀ fuel fuel' value gens, fuel ≤ fuel' →
      ∃ t, (primeGenAux maxValue fuel' value gens).1
          = (primeGenAux maxValue fuel value gens).1 ++ t := by
  intro fuel
  induction fuel with
  | zero =>
    intro fuel' value gens _
    exact ⟨(primeGenAux maxValue fuel' value gens).1, by simp [primeGenAux]⟩
  | succ fuel ih =>
    intro fuel' value gens hle
    obtain ⟨f', rfl⟩ : ∃ f', fuel' = f' + 1 := ⟨fuel' - 1, by omega⟩
    cases gens with
    | nil =>
      exact ⟨[], by simp [primeGenAux]⟩
    | cons g gs =>
      by_cases hlt : g.cur < value
      · rw [primeGenAux_adv maxValue f' value g gs hlt,
          primeGenAux_adv maxValue fuel value g gs hlt]
        exact ih f' _ _ (by omega)
      · cases hb : boundReached maxValue value with
        | true =>
          rw [primeGenAux_break maxValue f' value g gs hlt hb,
            primeGenAux_break maxValue fuel value g gs hlt hb]
          exact ⟨[], rfl⟩
        | false =>
          rw [primeGenAux_emit maxValue f' value g gs hlt hb,
            primeGenAux_emit maxValue fuel value g gs hlt hb]
          obtain ⟨t, ht⟩ := ih f' (value + 2)
            (SortedLinkedList.insert cursorCompare (g :: gs) ⟨value, value⟩) (by omega)
          exact ⟨t, by simp [ht]⟩

theorem primeGenAux_out_ge (maxValue : Option Nat) :
    ∀ fuel value gens x, x ∈ (primeGenAux maxValue fuel value gens).1 → value ≤ x := by
  intro fuel
  induction fuel with
  | zero =>
    intro value gens x hx
    simp [primeGenAux] at hx
  | succ fuel ih =>
    intro value gens x hx
    cases gens with
    | nil => simp [primeGenAux] at hx
    | cons g gs =>
      by_cases hlt : g.cur < value
      · rw [primeGenAux_adv maxValue fuel value g gs hlt] at hx
        by_cases hbump : ((SortedLinkedList.insert cursorCompare gs g.advance).head?.map
            Cursor.cur) = some value
        · rw [if_pos hbump] at hx
          have := ih _ _ x hx
          omega
        · rw [if_neg hbump] at hx
          exact ih _ _ x hx
      · cases hb : boundReached maxValue value with
        | true =>
          rw [primeGenAux_break maxValue fuel value g gs hlt hb] at hx
          simp at hx
        | false =>
          rw [primeGenAux_emit maxValue fuel value g gs hlt hb] at hx
          simp only [List.mem_cons] at hx
          rcases hx with rfl | hx'
          · exact le_refl x
          · have := ih _ _ x hx'
            omega

/-- Completion of a bounded run from the initial state: enough fuel makes the
sieve loop of `primeGenerator(B)` reach its `break` having yielded exactly the
primes in `[11, B)`, in order. -/
theorem primeGen_complete (B : Nat) :
    ∃ f0, ∀ fuel, f0 ≤ fuel →
      primeGenAux (some B) fuel 11 initGens = (primesBetween 11 B, true) := by
  obtain ⟨Q, hQle, hQP⟩ := Nat.exists_infinite_primes (max (B + 1) 13)
  have hQ13 : 13 ≤ Q := le_trans (le_max_right _ _) hQle
  have hQB : B + 1 ≤ Q := le_trans (le_max_left _ _) hQle
  refine ⟨sieveMeasure Q 11 initGens + 1, ?_⟩
  intro fuel hf
  have h := primeGenAux_correct B Q hQP hQ13 hQB (sieveMeasure Q 11 initGens + 1) 11 initGens
    sieveInv_init (by omega) (by omega)
  rw [primeGenAux_mono (some B) (sieveMeasure Q 11 initGens + 1) fuel 11 initGens hf
    (by rw [h]), h]

theorem isPrimeAux_false_of_div (n : Nat) :
    ∀ d j k, j = k + d → 6 * j + 5 ≤ Nat.sqrt n →
      (n % (6 * j + 5) = 0 ∨ n % (6 * j + 7) = 0) → isPrimeAux n k = false := by
  intro d
  induction d with
  | zero =>
    intro j k hjk hle hdiv
    have hkj : j = k := by omega
    subst hkj
    rw [isPrimeAux, dif_pos hle, if_pos hdiv]
  | succ d ih =>
    intro j k hjk hle hdiv
    rw [isPrimeAux, dif_pos (by omega : 6 * k + 5 ≤ Nat.sqrt n)]
    by_cases hd : n % (6 * k + 5) = 0 ∨ n % (6 * k + 7) = 0
    · rw [if_pos hd]
    · rw [if_neg hd]
      exact ih j (k + 1) (by omega) hle hdiv

theorem isPrimeAux_eq_false_imp (n : Nat) :
    ∀ k, isPrimeAux n k = false →
      ∃ j, k ≤ j ∧ 6 * j + 5 ≤ Nat.sqrt n ∧
        (n % (6 * j + 5) = 0 ∨ n % (6 * j + 7) = 0) := by
  have H : ∀ d k, Nat.sqrt n + 1 - k ≤ d → isPrimeAux n k = false →
      ∃ j, k ≤ j ∧ 6 * j + 5 ≤ Nat.sqrt n ∧
        (n % (6 * j + 5) = 0 ∨ n % (6 * j + 7) = 0) := by
    intro d
    induction d with
    | zero =>
      intro k hd hfalse
      rw [isPrimeAux, dif_neg (by omega)] at hfalse
      exact absurd hfalse (by simp)
    | succ d ih =>
      intro k hd hfalse
      by_cases hle : 6 * k + 5 ≤ Nat.sqrt n
      · rw [isPrimeAux, dif_pos hle] at hfalse
        by_cases hdv : n % (6 * k + 5) = 0 ∨ n % (6 * k + 7) = 0
        · exact ⟨k, le_refl k, hle, hdv⟩
        · rw [if_neg hdv] at hfalse
          obtain ⟨j, hj1, hj2, hj3⟩ := ih (k + 1) (by omega) hfalse
          exact ⟨j, by omega, hj2, hj3⟩
      · rw [isPrimeAux, dif_neg hle] at hfalse
        exact absurd hfalse (by simp)
  intro k
  exact H (Nat.sqrt n + 1 - k) k (le_refl _)

theorem isPrime_natCast (n : Nat) (h2 : 2 ≤ n) :
    isPrime (n : Int) = if n = 2 then true
      else if n % 2 = 0 ∨ n % 3 = 0 then false
      else isPrimeAux n 0 := by
  unfold isPrime
  rw [if_neg (by omega : ¬ ((n : Int) < 2))]
  by_cases he : n = 2
  · rw [if_pos (by omega : (n : Int) = 2), if_pos he]
  · rw [if_neg (by omega : ¬ ((n : Int) = 2)), if_neg he]
    by_cases hm : n % 2 = 0 ∨ n % 3 = 0
    · rw [if_pos (by omega : (n : Int) % 2 = 0 ∨ (n : Int) % 3 = 0), if_pos hm]
    · rw [if_neg (by omega : ¬ ((n : Int) % 2 = 0 ∨ (n : Int) % 3 = 0)), if_neg hm,
        Int.toNat_natCast]

/-- Characterisation of the source primality test: for inputs at least 2 it
recognises exactly the primes other than 3 (3 is lost to its `% 3` check). -/
theorem isPrime_eq_true_iff (n : Nat) (h2 : 2 ≤ n) :
    isPrime (n : Int) = true ↔ (n.Prime ∧ n ≠ 3) := by
  rw [isPrime_natCast n h2]
  by_cases he : n = 2
  · subst he
    simp only [if_pos rfl]
    exact ⟨fun _ => ⟨by norm_num, by norm_num⟩, fun _ => rfl⟩
  · rw [if_neg he]
    by_cases hm : n % 2 = 0 ∨ n % 3 = 0
    · rw [if_pos hm]
      simp only [Bool.false_eq_true, false_iff]
      rintro ⟨hp, hne⟩
      rcases hm with h | h
      · have : (2 : Nat) ∣ n := Nat.dvd_of_mod_eq_zero h
        rcases hp.eq_one_or_self_of_dvd 2 this with hh | hh <;> omega
      · have : (3 : Nat) ∣ n := Nat.dvd_of_mod_eq_zero h
        rcases hp.eq_one_or_self_of_dvd 3 this with hh | hh <;> omega
    · rw [if_neg hm]
      push_neg at hm
      constructor
      · intro htrue
        refine ⟨?_, by omega⟩
        by_contra hnp
        have hq := Nat.minFac_prime (show n ≠ 1 by omega)
        have hqd := Nat.minFac_dvd n
        have hqsq : n.minFac * n.minFac ≤ n := by
          have := Nat.minFac_sq_le_self (show 0 < n by omega) hnp
          nlinarith [this]
        have hq2 : n.minFac ≠ 2 := by
          intro h
          have := Nat.mod_eq_zero_of_dvd (h ▸ hqd)
          omega
        have hq3 : n.minFac ≠ 3 := by
          intro h
          have := Nat.mod_eq_zero_of_dvd (h ▸ hqd)
          omega
        have hq5 : 5 ≤ n.minFac := by
          have := hq.two_le
          rcases (by omega : n.minFac = 2 ∨ n.minFac = 3 ∨ n.minFac = 4 ∨ 5 ≤ n.minFac)
            with h | h | h | h
          · exact absurd h hq2
          · exact absurd h hq3
          · rw [h] at hq
            exact absurd hq (by norm_num)
          · exact h
        have hqmod2 : n.minFac % 2 = 1 := by
          rcases Nat.mod_two_eq_zero_or_one n.minFac with h | h
          · exfalso
            have h2d : (2 : Nat) ∣ n.minFac := Nat.dvd_of_mod_eq_zero h
            rcases hq.eq_one_or_self_of_dvd 2 h2d with hh | hh <;> omega
          · exact h
        have hqmod3 : n.minFac % 3 ≠ 0 := by
          intro h
          have h3d : (3 : Nat) ∣ n.minFac := Nat.dvd_of_mod_eq_zero h
          rcases hq.eq_one_or_self_of_dvd 3 h3d with hh | hh <;> omega
        have hqsqrt : n.minFac ≤ Nat.sqrt n := Nat.le_sqrt.mpr hqsq
        have hmod : n % n.minFac = 0 := Nat.mod_eq_zero_of_dvd hqd
        rcases (by omega : n.minFac % 6 = 1 ∨ n.minFac % 6 = 5) with h6 | h6
        · obtain ⟨m, hm6⟩ : ∃ m, n.minFac = 6 * m + 7 := ⟨(n.minFac - 7) / 6, by omega⟩
          have := isPrimeAux_false_of_div n m m 0 (by omega) (by omega)
            (Or.inr (by rw [← hm6]; exact hmod))
          rw [htrue] at this
          exact absurd this (by simp)
        · obtain ⟨m, hm6⟩ : ∃ m, n.minFac = 6 * m + 5 := ⟨(n.minFac - 5) / 6, by omega⟩
          have := isPrimeAux_false_of_div n m m 0 (by omega) (by omega)
            (Or.inl (by rw [← hm6]; exact hmod))
          rw [htrue] at this
          exact absurd this (by simp)
      · rintro ⟨hp, hne⟩
        by_contra hfalse
        obtain ⟨j, _, hjle, hjdiv⟩ :=
          isPrimeAux_eq_false_imp n 0 (Bool.not_eq_true _ ▸ hfalse)
        have hsq : Nat.sqrt n * Nat.sqrt n ≤ n := Nat.sqrt_le n
        have hsqlt : Nat.sqrt n < n := Nat.sqrt_lt_self (by omega)
        have h5s : 5 ≤ Nat.sqrt n := by omega
        have h5n : 5 * Nat.sqrt n ≤ n :=
          le_trans (Nat.mul_le_mul_right _ h5s) hsq
        rcases hjdiv with hdv | hdv
        · have hdvd : (6 * j + 5) ∣ n := Nat.dvd_of_mod_eq_zero hdv
          have hlt : 6 * j + 5 < n := by omega
          have := (Nat.prime_def_lt.mp hp).2 (6 * j + 5) hlt hdvd
          omega
        · have hdvd : (6 * j + 7) ∣ n := Nat.dvd_of_mod_eq_zero hdv
          have hlt : 6 * j + 7 < n := by omega
          have := (Nat.prime_def_lt.mp hp).2 (6 * j + 7) hlt hdvd
          omega

theorem primeGenListF_def (gf b : Nat) :
    primeGenListF gf b =
      if (primeGenAux (some b) gf 11 initGens).2
      then some (2 :: 3 :: 5 :: 7 :: (primeGenAux (some b) gf 11 initGens).1)
      else none := rfl

/-- Whenever a bounded generator run completes, its value sequence is the
canonical one: the four seeds followed by the primes in `[11, b)`. -/
theorem primeGenListF_eq (gf b : Nat) (P : List Nat)
    (h : primeGenListF gf b = some P) :
    P = 2 :: 3 :: 5 :: 7 :: primesBetween 11 b := by
  rw [primeGenListF_def] at h
  by_cases hflag : (primeGenAux (some b) gf 11 initGens).2 = true
  · obtain ⟨f0, hf0⟩ := primeGen_complete b
    have hmax := primeGenAux_mono (some b) gf (max gf f0) 11 initGens (le_max_left _ _) hflag
    have h2 := hf0 (max gf f0) (le_max_right _ _)
    have hrun : primeGenAux (some b) gf 11 initGens = (primesBetween 11 b, true) := by
      rw [← hmax, h2]
    rw [hrun] at h
    simp at h
    exact h.symm
  · rw [if_neg hflag] at h
    exact absurd h (by simp)

theorem primeGenListF_complete (b : Nat) :
    ∃ gf0, ∀ gf, gf0 ≤ gf →
      primeGenListF gf b = some (2 :: 3 :: 5 :: 7 :: primesBetween 11 b) := by
  obtain ⟨f0, hf0⟩ := primeGen_complete b
  refine ⟨f0, fun gf hgf => ?_⟩
  rw [primeGenListF_def, hf0 gf hgf]
  simp

theorem genList_all_prime (b : Nat) :
    ∀ p ∈ 2 :: 3 :: 5 :: 7 :: primesBetween 11 b, p.Prime := by
  intro p hp
  simp only [List.mem_cons] at hp
  rcases hp with rfl | rfl | rfl | rfl | hmem
  · norm_num
  · norm_num
  · norm_num
  · norm_num
  · exact (mem_primesBetween.mp hmem).2.2

theorem genList_mem_cases {b p : Nat} (h : p ∈ 2 :: 3 :: 5 :: 7 :: primesBetween 11 b) :
    p = 2 ∨ p = 3 ∨ p = 5 ∨ p = 7 ∨ (11 ≤ p ∧ p < b ∧ p.Prime) := by
  simp only [List.mem_cons] at h
  rcases h with rfl | rfl | rfl | rfl | hmem
  · exact Or.inl rfl
  · exact Or.inr (Or.inl rfl)
  · exact Or.inr (Or.inr (Or.inl rfl))
  · exact Or.inr (Or.inr (Or.inr (Or.inl rfl)))
  · obtain ⟨h1, h2, h3⟩ := mem_primesBetween.mp hmem
    exact Or.inr (Or.inr (Or.inr (Or.inr ⟨h1, h2, h3⟩)))

theorem genList_mem_of_prime {b q : Nat} (hq : q.Prime) (hcase : q ≤ 7 ∨ (11 ≤ q ∧ q < b)) :
    q ∈ 2 :: 3 :: 5 :: 7 :: primesBetween 11 b := by
  rcases hcase with h7 | ⟨h11, hlt⟩
  · have h2 := hq.two_le
    interval_cases q
    · simp
    · simp
    · exact absurd hq (by norm_num)
    · simp
    · exact absurd hq (by norm_num)
    · simp
  · simp only [List.mem_cons]
    exact Or.inr (Or.inr (Or.inr (Or.inr (mem_primesBetween.mpr ⟨h11, hlt, hq⟩))))

theorem genList_sorted (b : Nat) :
    (2 :: 3 :: 5 :: 7 :: primesBetween 11 b).Pairwise (· < ·) := by
  have hpb := primesBetween_pairwise 11 b
  have hge : ∀ x ∈ primesBetween 11 b, 11 ≤ x := fun x hx => (mem_primesBetween.mp hx).1
  refine List.pairwise_cons.mpr ⟨?_, List.pairwise_cons.mpr ⟨?_,
    List.pairwise_cons.mpr ⟨?_, List.pairwise_cons.mpr ⟨?_, hpb⟩⟩⟩⟩
  · intro x hx
    simp only [List.mem_cons] at hx
    rcases hx with rfl | rfl | rfl | hx
    · omega
    · omega
    · omega
    · have := hge x hx
      omega
  · intro x hx
    simp only [List.mem_cons] at hx
    rcases hx with rfl | rfl | hx
    · omega
    · omega
    · have := hge x hx
      omega
  · intro x hx
    simp only [List.mem_cons] at hx
    rcases hx with rfl | hx
    · omega
    · have := hge x hx
      omega
  · intro x hx
    have := hge x hx
    omega

theorem find_sorted_least {P : List Nat} {pred : Nat → Bool} {p q : Nat}
    (hs : P.Pairwise (· < ·)) (hfind : P.find? pred = some p) (hq : q ∈ P)
    (hqp : pred q = true) : p ≤ q := by
  induction P with
  | nil => simp at hfind
  | cons x xs ih =>
    rw [List.find?_cons] at hfind
    cases hpx : pred x with
    | true =>
      rw [hpx] at hfind
      simp only [Option.some.injEq] at hfind
      subst hfind
      rcases List.mem_cons.mp hq with rfl | hq'
      · exact le_refl q
      · exact le_of_lt (List.rel_of_pairwise_cons hs hq')
    | false =>
      rw [hpx] at hfind
      have hqx : q ≠ x := by
        intro h
        rw [h, hpx] at hqp
        exact absurd hqp (by simp)
      rcases List.mem_cons.mp hq with rfl | hq'
      · exact absurd rfl hqx
      · exact ih (List.Pairwise.of_cons hs) hfind hq'

/-- When the factor loop of `primeFactors` finds a divisor in the bounded
generator output, that divisor is the least prime factor of the value. -/
theorem find_eq_minFac {b v p : Nat} (hv : 2 ≤ v)
    (hfind : (2 :: 3 :: 5 :: 7 :: primesBetween 11 b).find?
      (fun q => v % q = 0) = some p) :
    p = v.minFac := by
  have hpmem := List.mem_of_find?_eq_some hfind
  have hpdvd : v % p = 0 := by simpa using List.find?_some hfind
  have hppr : p.Prime := genList_all_prime b p hpmem
  have hpd : p ∣ v := Nat.dvd_of_mod_eq_zero hpdvd
  have hle : v.minFac ≤ p := Nat.minFac_le_of_dvd hppr.two_le hpd
  rcases eq_or_lt_of_le hle with h | h
  · exact h.symm
  · exfalso
    have hqpr : v.minFac.Prime := Nat.minFac_prime (by omega)
    have hqd : v.minFac ∣ v := Nat.minFac_dvd v
    have hqmem : v.minFac ∈ 2 :: 3 :: 5 :: 7 :: primesBetween 11 b := by
      refine genList_mem_of_prime hqpr ?_
      by_cases h7 : v.minFac ≤ 7
      · exact Or.inl h7
      · refine Or.inr ⟨?_, ?_⟩
        · rcases (by omega : v.minFac = 8 ∨ v.minFac = 9 ∨ v.minFac = 10 ∨ 11 ≤ v.minFac)
            with h8 | h8 | h8 | h8
          · rw [h8] at hqpr
            exact absurd hqpr (by norm_num)
          · rw [h8] at hqpr
            exact absurd hqpr (by norm_num)
          · rw [h8] at hqpr
            exact absurd hqpr (by norm_num)
          · exact h8
        · rcases genList_mem_cases hpmem with h' | h' | h' | h' | h' <;> omega
    have := find_sorted_least (genList_sorted b) hfind hqmem
      (by simp [Nat.mod_eq_zero_of_dvd hqd])
    omega

/-- Structure of every list `primeFactors` actually returns: it extends the
accumulator by primes that divide the value, each at least the value's least
prime factor, in weakly ascending order, with the product of the appended part
dividing the value (the source's duplicate-suppression check can drop repeated
factors, so only divisibility survives, not equality). -/
theorem primeFactorsF_spec :
    ∀ fuel genFuel v existing L,
      primeFactorsF fuel genFuel v existing = some (some L) → 1 ≤ v →
      ∃ S, L = existing ++ S ∧ (∀ x ∈ S, x.Prime ∧ x ∣ v ∧ v.minFac ≤ x) ∧
        S.prod ∣ v ∧ S.Chain' (· ≤ ·) := by
  intro fuel
  induction fuel with
  | zero =>
    intro genFuel v existing L h _
    exact absurd h (by simp [primeFactorsF])
  | succ fuel ih =>
    intro genFuel v existing L h hv
    rw [primeFactorsF] at h
    by_cases h1 : v = 1
    · rw [if_pos h1] at h
      simp only [Option.some.injEq] at h
      refine ⟨[], by simp [h], by simp, ?_, List.chain'_nil⟩
      simp [h1]
    · rw [if_neg h1] at h
      have hv2 : 2 ≤ v := by omega
      by_cases hp : isPrime (v : Int) = true
      · rw [if_pos hp] at h
        have hvP : v.Prime := ((isPrime_eq_true_iff v hv2).mp hp).1
        by_cases hdup : existing.getLast? = some v
        · rw [if_pos hdup] at h
          simp only [Option.some.injEq] at h
          exact ⟨[], by simp [h], by simp, one_dvd v, List.chain'_nil⟩
        · rw [if_neg hdup] at h
          simp only [Option.some.injEq] at h
          refine ⟨[v], by simp [h], ?_, by simp, List.chain'_singleton v⟩
          intro x hx
          simp only [List.mem_singleton] at hx
          subst hx
          exact ⟨hvP, dvd_refl x, Nat.minFac_le (by omega)⟩
      · rw [if_neg hp] at h
        cases hgen : primeGenListF genFuel (floorSqrt v) with
        | none =>
          rw [hgen] at h
          exact absurd h (by simp)
        | some P =>
          rw [hgen] at h
          simp only at h
          have hPeq := primeGenListF_eq genFuel (floorSqrt v) P hgen
          subst hPeq
          cases hfind : (2 :: 3 :: 5 :: 7 :: primesBetween 11 (floorSqrt v)).find?
              (fun p => v % p = 0) with
          | none =>
            rw [hfind] at h
            simp at h
          | some p =>
            rw [hfind] at h
            simp only at h
            have hpeq : p = v.minFac := find_eq_minFac hv2 hfind
            have hppr : p.Prime := hpeq ▸ Nat.minFac_prime (by omega)
            have hpdvd : p ∣ v := hpeq ▸ Nat.minFac_dvd v
            have hple : p ≤ v := Nat.le_of_dvd (by omega) hpdvd
            have hq1 : 1 ≤ v / p := Nat.div_pos hple hppr.pos
            have hqdv : v / p ∣ v := Nat.div_dvd_of_dvd hpdvd
            by_cases hdup : existing.getLast? = some v
            · rw [if_pos hdup] at h
              obtain ⟨S, hS1, hS2, hS3, hS4⟩ := ih genFuel (v / p) existing L h hq1
              refine ⟨S, hS1, ?_, dvd_trans hS3 hqdv, hS4⟩
              intro x hx
              obtain ⟨hxP, hxd, _⟩ := hS2 x hx
              have hxdv : x ∣ v := dvd_trans hxd hqdv
              exact ⟨hxP, hxdv, Nat.minFac_le_of_dvd hxP.two_le hxdv⟩
            · rw [if_neg hdup] at h
              obtain ⟨S, hS1, hS2, hS3, hS4⟩ := ih genFuel (v / p) (existing ++ [p]) L h hq1
              refine ⟨p :: S, by simp [hS1], ?_, ?_, ?_⟩
              · intro x hx
                rcases List.mem_cons.mp hx with rfl | hx'
                · exact ⟨hppr, hpdvd, le_of_eq hpeq.symm⟩
                · obtain ⟨hxP, hxd, _⟩ := hS2 x hx'
                  have hxdv : x ∣ v := dvd_trans hxd hqdv
                  exact ⟨hxP, hxdv, Nat.minFac_le_of_dvd hxP.two_le hxdv⟩
              · rw [List.prod_cons]
                have hcancel : p * (v / p) = v := Nat.mul_div_cancel' hpdvd
                calc p * S.prod ∣ p * (v / p) := mul_dvd_mul_left p hS3
                  _ = v := hcancel
              · rw [List.chain'_cons']
                refine ⟨?_, hS4⟩
                intro y hy
                have hymem : y ∈ S := List.mem_of_mem_head? hy
                obtain ⟨hyP, hyd, _⟩ := hS2 y hymem
                have hydv : y ∣ v := dvd_trans hyd hqdv
                have := Nat.minFac_le_of_dvd hyP.two_le hydv
                omega

theorem floorSqrtAux_eq (n : Nat) : ∀ k, floorSqrtAux n k = min (Nat.sqrt n) k := by
  intro k
  induction k with
  | zero => simp [floorSqrtAux]
  | succ k ih =>
    rw [floorSqrtAux]
    by_cases h : (k + 1) * (k + 1) ≤ n
    · rw [if_pos h]
      have := Nat.le_sqrt.mpr h
      omega
    · rw [if_neg h, ih]
      have : ¬ (k + 1 ≤ Nat.sqrt n) := fun hc => h (Nat.le_sqrt.mp hc)
      omega

theorem floorSqrt_eq (n : Nat) : floorSqrt n = Nat.sqrt n := by
  rw [floorSqrt, floorSqrtAux_eq]
  have h1 : Nat.sqrt n ≤ n := Nat.sqrt_le_self n
  omega

theorem natCompare_antisym (a b : Nat) : 0 ≤ natCompare a b → natCompare b a ≤ 0 := by
  simp only [natCompare]
  omega

theorem foldl_insert_perm {T : Type} (cmp : T → T → Int) :
    ∀ (vs acc : List T), (vs.foldl (SortedLinkedList.insert cmp) acc).Perm (acc ++ vs) := by
  intro vs
  induction vs with
  | nil =>
    intro acc
    simp
  | cons v vs ih =>
    intro acc
    rw [List.foldl_cons]
    refine (ih (SortedLinkedList.insert cmp acc v)).trans ?_
    refine ((SortedLinkedList.insert_perm cmp acc v).append_right vs).trans ?_
    exact List.perm_middle.symm

theorem foldl_insert_chain {T : Type} (cmp : T → T → Int)
    (hcmp : ∀ a b, 0 ≤ cmp a b → cmp b a ≤ 0) :
    ∀ (vs acc : List T), List.Chain' (fun a b => cmp a b ≤ 0) acc →
      List.Chain' (fun a b => cmp a b ≤ 0)
        (vs.foldl (SortedLinkedList.insert cmp) acc) := by
  intro vs
  induction vs with
  | nil =>
    intro acc hacc
    exact hacc
  | cons v vs ih =>
    intro acc hacc
    rw [List.foldl_cons]
    exact ih _ (SortedLinkedList.insert_chain cmp hcmp acc hacc v)

/-- Claim C1, counterexample to the claim as stated: with bound 3 the completed
run of `primeGenerator(3)` produces the seeds 2, 3, 5, 7, and 7 is not
less than the bound 3. -/
theorem primeGenerator_bound_three_violates_bound :
    (primeGenAux (some 3) 50 11 initGens).2 = true ∧
    primeGenList (some 3) 50 = [2, 3, 5, 7] ∧
    ¬ (∀ x ∈ primeGenList (some 3) 50, x < 3) := by
  refine ⟨by decide, by decide, ?_⟩
  intro hall
  have h7 : (7 : Nat) ∈ primeGenList (some 3) 50 := by decide
  have := hall 7 h7
  omega

/-- Claim C1, amended: for every bound B ≥ 8 (so that the unconditionally
yielded seeds 2, 3, 5, 7 are themselves below the bound) and all sufficient
fuel, the bounded run completes, every value produced by `primeGenerator(B)`
is strictly less than B, the output is strictly ascending, and every prime
below B appears exactly once. -/
theorem primeGenerator_bounded_correct (B : Nat) (hB : 8 ≤ B) :
    ∃ f0, ∀ fuel, f0 ≤ fuel →
      (primeGenAux (some B) fuel 11 initGens).2 = true ∧
      (∀ x ∈ primeGenList (some B) fuel, x < B) ∧
      (primeGenList (some B) fuel).Pairwise (· < ·) ∧
      (∀ p : Nat, p.Prime → p < B → (primeGenList (some B) fuel).count p = 1) := by
  obtain ⟨f0, hf0⟩ := primeGen_complete B
  refine ⟨f0, fun fuel hf => ?_⟩
  have hrun := hf0 fuel hf
  have hlist : primeGenList (some B) fuel = 2 :: 3 :: 5 :: 7 :: primesBetween 11 B := by
    unfold primeGenList
    rw [hrun]
  refine ⟨by rw [hrun], ?_, ?_, ?_⟩
  · intro x hx
    rw [hlist] at hx
    rcases genList_mem_cases hx with rfl | rfl | rfl | rfl | ⟨_, h2, _⟩ <;> omega
  · rw [hlist]
    exact genList_sorted B
  · intro p hp hpB
    rw [hlist]
    have hnd : (2 :: 3 :: 5 :: 7 :: primesBetween 11 B).Nodup :=
      (genList_sorted B).imp Nat.ne_of_lt
    refine List.count_eq_one_of_mem hnd (genList_mem_of_prime hp ?_)
    by_cases h7 : p ≤ 7
    · exact Or.inl h7
    · refine Or.inr ⟨?_, hpB⟩
      rcases (by omega : p = 8 ∨ p = 9 ∨ p = 10 ∨ 11 ≤ p) with h | h | h | h
      · rw [h] at hp
        exact absurd hp (by norm_num)
      · rw [h] at hp
        exact absurd hp (by norm_num)
      · rw [h] at hp
        exact absurd hp (by norm_num)
      · exact h

theorem primeGenerator_bounded_correct_witness :
    ∃ f0, ∀ fuel, f0 ≤ fuel →
      (primeGenAux (some 12) fuel 11 initGens).2 = true ∧
      (∀ x ∈ primeGenList (some 12) fuel, x < 12) ∧
      (primeGenList (some 12) fuel).Pairwise (· < ·) ∧
      (∀ p : Nat, p.Prime → p < 12 → (primeGenList (some 12) fuel).count p = 1) :=
  primeGenerator_bounded_correct 12 (by norm_num)

/-- Claim C2, counterexample to the claim as stated: `primeGenerator(3)`
completes but does not produce an empty sequence. -/
theorem primeGenerator_bound_three_not_empty :
    (primeGenAux (some 3) 60 11 initGens).2 = true ∧
    primeGenList (some 3) 60 ≠ [] := by
  exact ⟨by decide, by decide⟩

/-- Claim C2, amended: `primeGenerator(0)`, `primeGenerator(2)` and
`primeGenerator(3)` each produce exactly the seed values `[2, 3, 5, 7]` and
then stop without error: the seeds are yielded unconditionally before the
bound is ever consulted, and the sieve loop itself contributes nothing. -/
theorem primeGenerator_small_bounds_yield_seeds (fuel : Nat) (hf : 50 ≤ fuel) :
    primeGenList (some 0) fuel = [2, 3, 5, 7] ∧
    primeGenList (some 2) fuel = [2, 3, 5, 7] ∧
    primeGenList (some 3) fuel = [2, 3, 5, 7] ∧
    (primeGenAux (some 0) fuel 11 initGens).2 = true ∧
    (primeGenAux (some 2) fuel 11 initGens).2 = true ∧
    (primeGenAux (some 3) fuel 11 initGens).2 = true := by
  have h0 := primeGenAux_mono (some 0) 50 fuel 11 initGens hf (by decide)
  have h2 := primeGenAux_mono (some 2) 50 fuel 11 initGens hf (by decide)
  have h3 := primeGenAux_mono (some 3) 50 fuel 11 initGens hf (by decide)
  unfold primeGenList
  rw [h0, h2, h3]
  exact ⟨by decide, by decide, by decide, by decide, by decide, by decide⟩

theorem primeGenerator_small_bounds_yield_seeds_witness :
    primeGenList (some 0) 50 = [2, 3, 5, 7] ∧
    primeGenList (some 2) 50 = [2, 3, 5, 7] ∧
    primeGenList (some 3) 50 = [2, 3, 5, 7] ∧
    (primeGenAux (some 0) 50 11 initGens).2 = true ∧
    (primeGenAux (some 2) 50 11 initGens).2 = true ∧
    (primeGenAux (some 3) 50 11 initGens).2 = true :=
  primeGenerator_small_bounds_yield_seeds 50 (le_refl 50)

/-- Claim C3, counterexample to the claim as stated: `primeFactors(9)` (with
the empty starting accumulator, as the public callers invoke it) terminates
with the list `[3]`, whose product is 3 rather than 9, and which contains 3
once rather than twice. -/
theorem primeFactors_nine_breaks_product_law :
    primeFactorsF 10 60 9 [] = some (some [3]) ∧
    ([3] : List Nat).prod ≠ 9 ∧
    List.count 3 ([3] : List Nat) ≠ 2 := by
  exact ⟨by decide, by decide, by decide⟩

/-- Claim C3, amended: whenever `primeFactors(value)` (empty accumulator)
terminates with a list, every element of the list is prime and the list is
weakly ascending, and the product of the list divides the input; the product
can be a proper divisor because the duplicate-suppression guard drops repeated
factors (`primeFactors(9) = [3]`). -/
theorem primeFactors_partial_props (fuel genFuel v : Nat) (L : List Nat)
    (hv : 1 ≤ v) (h : primeFactorsF fuel genFuel v [] = some (some L)) :
    (∀ x ∈ L, x.Prime) ∧ L.Sorted (· ≤ ·) ∧ L.prod ∣ v := by
  obtain ⟨S, hS1, hS2, hS3, hS4⟩ := primeFactorsF_spec fuel genFuel v [] L h hv
  simp only [List.nil_append] at hS1
  subst hS1
  exact ⟨fun x hx => (hS2 x hx).1, List.chain'_iff_pairwise.mp hS4, hS3⟩

theorem primeFactors_partial_props_witness :
    (∀ x ∈ ([2, 2, 3] : List Nat), x.Prime) ∧
    ([2, 2, 3] : List Nat).Sorted (· ≤ ·) ∧
    ([2, 2, 3] : List Nat).prod ∣ 12 :=
  primeFactors_partial_props 5 60 12 [2, 2, 3] (by norm_num) (by decide)

/-- Claim C4: the code is wrong on input 3.  `isPrime(3)` returns `false`
because the test `value % 3 == 0` fires before any equality check with 3 (only
2 has a special case), yet 3 is prime, and trial division cannot find a
divisor: the divisor range `[2, √3]` is empty since `√3 < 2`. -/
theorem isPrime_three_bug :
    isPrime 3 = false ∧ Nat.Prime 3 ∧ Nat.sqrt 3 < 2 := by
  refine ⟨by decide, by norm_num, ?_⟩
  have h := Nat.sqrt_lt.mpr (show (3 : Nat) < 2 * 2 by norm_num)
  omega

/-- Claim C5: the first ten values of an unbounded run of `primeGenerator` are
2, 3, 5, 7, 11, 13, 17, 19, 23, 29 (any run long enough to produce ten values
agrees on them, by fuel monotonicity). -/
theorem primeGenerator_first_ten (fuel : Nat) (hf : 60 ≤ fuel) :
    (primeGenList none fuel).take 10 = [2, 3, 5, 7, 11, 13, 17, 19, 23, 29] := by
  obtain ⟨t, ht⟩ := primeGenAux_extend none 60 fuel 11 initGens hf
  unfold primeGenList
  rw [ht, show (primeGenAux none 60 11 initGens).1
      = [11, 13, 17, 19, 23, 29, 31, 37, 41, 43, 47] from by decide,
    show (2 : Nat) :: 3 :: 5 :: 7 :: ([11, 13, 17, 19, 23, 29, 31, 37, 41, 43, 47] ++ t)
      = ([2, 3, 5, 7, 11, 13, 17, 19, 23, 29, 31, 37, 41, 43, 47] : List Nat) ++ t from rfl,
    List.take_append_of_le_length (by norm_num)]
  decide

theorem primeGenerator_first_ten_witness :
    (primeGenList none 60).take 10 = [2, 3, 5, 7, 11, 13, 17, 19, 23, 29] :=
  primeGenerator_first_ten 60 (le_refl 60)

/-- Claim C6: for every bound argument (present or absent) and every fuel, the
run of `primeGenerator` starts with the four unconditional seed yields
2, 3, 5, 7, and the sieve loop itself never produces any of 2, 3, 5, 7 (all
its outputs are at least the initial candidate 11). -/
theorem primeGenerator_seeds_unconditional (maxValue : Option Nat) (fuel : Nat) :
    (primeGenList maxValue fuel).take 4 = [2, 3, 5, 7] ∧
    ∀ x ∈ (primeGenAux maxValue fuel 11 initGens).1, x ∉ ([2, 3, 5, 7] : List Nat) := by
  constructor
  · rfl
  · intro x hx hmem
    have h11 := primeGenAux_out_ge maxValue fuel 11 initGens x hx
    simp only [List.mem_cons, List.not_mem_nil, or_false] at hmem
    rcases hmem with rfl | rfl | rfl | rfl <;> omega

theorem primeGenerator_seeds_unconditional_witness :
    (primeGenList (some 0) 50).take 4 = [2, 3, 5, 7] ∧
    ∀ x ∈ (primeGenAux (some 0) 50 11 initGens).1, x ∉ ([2, 3, 5, 7] : List Nat) :=
  primeGenerator_seeds_unconditional (some 0) 50

/-- Claim C7: for every comparator satisfying the sign contract of the
`Comparator` interface, inserting a new value into a sorted linked list returns
a list containing exactly the prior elements plus the new value, and the sorted
invariant holds on the result: the comparator applied to any two adjacent
values is at most 0 (ties permitted, their order unspecified). -/
theorem insert_preserves_contract {T : Type} (cmp : T → T → Int)
    (hcmp : ∀ a b, 0 ≤ cmp a b → cmp b a ≤ 0)
    (l : List T) (hl : List.Chain' (fun a b => cmp a b ≤ 0) l) (v : T) :
    (SortedLinkedList.insert cmp l v).Perm (v :: l) ∧
    List.Chain' (fun a b => cmp a b ≤ 0) (SortedLinkedList.insert cmp l v) :=
  ⟨SortedLinkedList.insert_perm cmp l v, SortedLinkedList.insert_chain cmp hcmp l hl v⟩

theorem insert_preserves_contract_witness :
    (SortedLinkedList.insert natCompare [1, 3] 2).Perm (2 :: [1, 3]) ∧
    List.Chain' (fun a b => natCompare a b ≤ 0) (SortedLinkedList.insert natCompare [1, 3] 2) :=
  insert_preserves_contract natCompare natCompare_antisym [1, 3]
    (by norm_num [List.chain'_cons, List.chain'_singleton, natCompare]) 2

/-- Claim C8: building a container by inserting any permutation of a multiset
of values and then walking it from the head yields the ascending sort of the
multiset: the result is a permutation of the inputs, it is sorted, and any two
permutations of the same inputs build identical containers. -/
theorem container_permutation_invariant (vs vs' : List Nat) (h : vs.Perm vs') :
    (buildContainer vs).Perm vs ∧ (buildContainer vs).Sorted (· ≤ ·) ∧
    buildContainer vs = buildContainer vs' := by
  have hperm : ∀ u : List Nat, (buildContainer u).Perm u := fun u => by
    simpa using foldl_insert_perm natCompare u []
  have hsorted : ∀ u : List Nat, (buildContainer u).Sorted (· ≤ ·) := by
    intro u
    have hc := foldl_insert_chain natCompare natCompare_antisym u [] List.chain'_nil
    have hc2 : List.Chain' (· ≤ ·) (buildContainer u) := by
      refine hc.imp fun a b hab => ?_
      simp only [natCompare] at hab
      omega
    exact List.chain'_iff_pairwise.mp hc2
  refine ⟨hperm vs, hsorted vs, ?_⟩
  exact List.eq_of_perm_of_sorted (((hperm vs).trans h).trans (hperm vs').symm)
    (hsorted vs) (hsorted vs')

theorem container_permutation_invariant_witness :
    (buildContainer [3, 1, 2]).Perm [3, 1, 2] ∧
    (buildContainer [3, 1, 2]).Sorted (· ≤ ·) ∧
    buildContainer [3, 1, 2] = buildContainer [2, 3, 1] :=
  container_permutation_invariant [3, 1, 2] [2, 3, 1] (by decide)

/-- Claim C9, counterexample to the claim as stated: reading the head value of
the container built from no values returns normally with `undefined` (modelled
`none`); no error of any kind is raised — the source has no failure path in
`getValue`, it simply returns the `undefined` stored by `create`. -/
theorem createHead_empty_nat_returns_undefined :
    SortedLinkedList.createHead natCompare ([] : List Nat) = none := rfl

/-- Claim C9, amended: for every element type and comparator, reading the
minimum of an empty container yields the value `undefined` (`none`), a normal
return rather than an `Empty`/`NotFound` error. -/
theorem createHead_empty_returns_none (T : Type) (cmp : T → T → Int) :
    SortedLinkedList.createHead cmp ([] : List T) = none := rfl

theorem createHead_empty_returns_none_witness :
    SortedLinkedList.createHead (fun a b : Int => a - b) ([] : List Int) = none :=
  createHead_empty_returns_none Int (fun a b : Int => a - b)

/-- Claim C10: for every prime p ≥ 11, `primeFactors(p * p)` falls off the end
of its factor loop and returns `undefined`: the generator is bounded at
`√(p*p) = p` exclusively, so p itself is never yielded and no listed prime
divides p². -/
theorem primeFactors_prime_square_undefined (p : Nat) (hp : p.Prime) (h11 : 11 ≤ p) :
    ∃ gf0, ∀ gf, gf0 ≤ gf → ∀ fuel, 1 ≤ fuel →
      (∀ P, primeGenListF gf p = some P → p ∉ P) ∧
      primeFactorsF fuel gf (p * p) [] = some none := by
  obtain ⟨gf0, hgf0⟩ := primeGenListF_complete p
  refine ⟨gf0, fun gf hgf fuel hfuel => ⟨?_, ?_⟩⟩
  · intro P hP hmem
    rw [hgf0 gf hgf] at hP
    simp only [Option.some.injEq] at hP
    subst hP
    rcases genList_mem_cases hmem with h | h | h | h | h <;> omega
  · obtain ⟨f1, rfl⟩ : ∃ f1, fuel = f1 + 1 := ⟨fuel - 1, by omega⟩
    have hpp : 121 ≤ p * p := Nat.mul_le_mul h11 h11
    have hpp2 : 2 ≤ p * p := le_trans (by norm_num) hpp
    have hne1 : ¬ (p * p = 1) := by
      intro h
      rw [h] at hpp2
      exact absurd hpp2 (by norm_num)
    have hnp : ¬ (p * p).Prime := by
      intro h
      rcases h.eq_one_or_self_of_dvd p (Dvd.intro p rfl) with hh | hh
      · omega
      · have hmul : p * p = p * 1 := by
          rw [Nat.mul_one]
          exact hh.symm
        have := Nat.eq_of_mul_eq_mul_left (show 0 < p by omega) hmul
        omega
    have hisp : isPrime ((p * p : Nat) : Int) = false := by
      by_contra hc
      rw [Bool.not_eq_false] at hc
      exact hnp ((isPrime_eq_true_iff (p * p) hpp2).mp hc).1
    rw [primeFactorsF, if_neg hne1, if_neg (by rw [hisp]; exact Bool.false_ne_true),
      floorSqrt_eq, Nat.sqrt_eq, hgf0 gf hgf]
    have hfind : (2 :: 3 :: 5 :: 7 :: primesBetween 11 p).find?
        (fun q => p * p % q = 0) = none := by
      rw [List.find?_eq_none]
      intro q hq hmod
      have hqpr := genList_all_prime p q hq
      have hqdvd : q ∣ p * p := Nat.dvd_of_mod_eq_zero (by simpa using hmod)
      have hqp : q ∣ p := ((hqpr.dvd_mul).mp hqdvd).elim id id
      have hqeq : q = p := (Nat.prime_dvd_prime_iff_eq hqpr hp).mp hqp
      rcases genList_mem_cases hq with h | h | h | h | h <;> omega
    simp only [hfind]

theorem primeFactors_prime_square_undefined_witness :
    ∃ gf0, ∀ gf, gf0 ≤ gf → ∀ fuel, 1 ≤ fuel →
      (∀ P, primeGenListF gf 11 = some P → 11 ∉ P) ∧
      primeFactorsF fuel gf (11 * 11) [] = some none :=
  primeFactors_prime_square_undefined 11 (by norm_num) (le_refl 11)
